import Mathlib

/-!
Verification of `src/05-objects-tasks.js`: a rectangle value object, JSON
encode/decode helpers, and a fluent CSS selector builder
(`MySelector`, `MyCombinedSelector`, `cssSelectorBuilder`).

The JavaScript is shallowly embedded: each mutating method becomes a function
from the receiver state to `Except (SelErr × MySelector) MySelector`, where an
error carries the object state at the moment the exception is thrown (the JS
object survives a throw, so we track the state it is left in).
-/

deriving instance DecidableEq for Except

namespace CoreJs

/-- State of a `MySelector` object (constructor, lines 117-125).
`el`, `idValue`, `psdEl` start as `''`; `cls`, `attrValue`, `psdCls` start as
`[]`; `order` starts as `0`. -/
structure MySelector where
  el : String
  idValue : String
  cls : List String
  attrValue : List String
  psdCls : List String
  psdEl : String
  order : Nat
deriving DecidableEq

/-- `new MySelector()`. -/
def MySelector.new : MySelector := ⟨"", "", [], [], [], "", 0⟩

/-- The two error messages thrown by `MySelector.prototype.check`
(lines 170-178): the duplicate-singular-part error and the
order-violation error. -/
inductive SelErr where
  | duplicate
  | orderViolation
deriving DecidableEq

/-- `check(val, ord)` (lines 170-178).  `val` is the field named by the first
argument: `some` of the field when that field is a string (`el`, `idValue`,
`psdEl`), `none` when it is an array (`typeof this[val] === 'string'` is then
false).  Throws the duplicate error when the string field is non-empty, then
the order error when `ord < this.order`; otherwise sets `this.order = ord`. -/
def MySelector.check (s : MySelector) (val : Option String) (ord : Nat) :
    Except (SelErr × MySelector) MySelector :=
  if (match val with | some v => decide (v.length > 0) | none => false) then
    .error (.duplicate, s)
  else if ord < s.order then
    .error (.orderViolation, s)
  else
    .ok { s with order := ord }

/-- `element(value)` (lines 134-138): `check('el', 1); this.el = value`. -/
def MySelector.element (s : MySelector) (value : String) :
    Except (SelErr × MySelector) MySelector :=
  (s.check (some s.el) 1).map fun s1 => { s1 with el := value }

/-- `id(value)` (lines 140-144): `check('idValue', 2); this.idValue = value`. -/
def MySelector.id (s : MySelector) (value : String) :
    Except (SelErr × MySelector) MySelector :=
  (s.check (some s.idValue) 2).map fun s1 => { s1 with idValue := value }

/-- `class(value)` (lines 146-150): `check('cls', 3); this.cls.push(value)`.
(`class` is a Lean keyword, hence the name `addClass`.) -/
def MySelector.addClass (s : MySelector) (value : String) :
    Except (SelErr × MySelector) MySelector :=
  (s.check none 3).map fun s1 => { s1 with cls := s1.cls ++ [value] }

/-- `attr(value)` (lines 152-156): `check('attrValue', 4); this.attrValue.push(value)`. -/
def MySelector.attr (s : MySelector) (value : String) :
    Except (SelErr × MySelector) MySelector :=
  (s.check none 4).map fun s1 => { s1 with attrValue := s1.attrValue ++ [value] }

/-- `pseudoClass(value)` (lines 158-162): `check('psdCls', 5); this.psdCls.push(value)`. -/
def MySelector.pseudoClass (s : MySelector) (value : String) :
    Except (SelErr × MySelector) MySelector :=
  (s.check none 5).map fun s1 => { s1 with psdCls := s1.psdCls ++ [value] }

/-- `pseudoElement(value)` (lines 164-168): `check('psdEl', 6); this.psdEl = value`. -/
def MySelector.pseudoElement (s : MySelector) (value : String) :
    Except (SelErr × MySelector) MySelector :=
  (s.check (some s.psdEl) 6).map fun s1 => { s1 with psdEl := value }

/-- The argument of `transform` (lines 180-186) is either a string field or an
array field of `MySelector`. -/
inductive JSVal where
  | str (v : String)
  | arr (l : List String)

/-- Concatenation of a list of strings (JS `Array.prototype.join('')`). -/
def joinStrs : List String → String
  | [] => ""
  | a :: l => a ++ joinStrs l

/-- `transform(value, start, end)` (lines 180-186).  A falsy value (for the
string fields, exactly `''`) is replaced by `[]`, so an empty string field
renders as `''`; an array maps each item to `start + item + end` and joins
with `''`; a non-empty string renders as `start + value + end`. -/
def transform : JSVal → String → String → String
  | .str v, start, stop => if v = "" then "" else start ++ v ++ stop
  | .arr l, start, stop => joinStrs (l.map fun item => start ++ item ++ stop)

/-- `stringify()` on `MySelector` (lines 188-192). -/
def MySelector.stringify (s : MySelector) : String :=
  s.el ++ transform (.str s.idValue) "#" "" ++ transform (.arr s.cls) "." ""
    ++ transform (.arr s.attrValue) "[" "]" ++ transform (.arr s.psdCls) ":" ""
    ++ transform (.str s.psdEl) "::" ""

/-- A selector node: a `MySelector` or a `MyCombinedSelector(s1, c, s2)`
(constructor, lines 127-131). -/
inductive Selector where
  | simple (s : MySelector)
  | combined (s1 : Selector) (c : String) (s2 : Selector)
deriving DecidableEq

/-- `stringify()` (lines 188-192 and 195-199): a combined node renders as
`s1.stringify() + ' ' + c + ' ' + s2.stringify()`. -/
def Selector.stringify : Selector → String
  | .simple s => s.stringify
  | .combined s1 c s2 => s1.stringify ++ " " ++ c ++ " " ++ s2.stringify

namespace cssSelectorBuilder

/-- `cssSelectorBuilder.element` (lines 202-204). -/
def element (value : String) : Except (SelErr × MySelector) MySelector :=
  MySelector.new.element value

/-- `cssSelectorBuilder.id` (lines 206-208). -/
def id (value : String) : Except (SelErr × MySelector) MySelector :=
  MySelector.new.id value

/-- `cssSelectorBuilder.class` (lines 210-212). -/
def addClass (value : String) : Except (SelErr × MySelector) MySelector :=
  MySelector.new.addClass value

/-- `cssSelectorBuilder.attr` (lines 214-216). -/
def attr (value : String) : Except (SelErr × MySelector) MySelector :=
  MySelector.new.attr value

/-- `cssSelectorBuilder.pseudoClass` (lines 218-220). -/
def pseudoClass (value : String) : Except (SelErr × MySelector) MySelector :=
  MySelector.new.pseudoClass value

/-- `cssSelectorBuilder.pseudoElement` (lines 222-224). -/
def pseudoElement (value : String) : Except (SelErr × MySelector) MySelector :=
  MySelector.new.pseudoElement value

/-- `cssSelectorBuilder.combine` (lines 226-228). -/
def combine (selector1 : Selector) (combinator : String) (selector2 : Selector) :
    Selector :=
  .combined selector1 combinator selector2

end cssSelectorBuilder

/-- One part-adding operation on a `MySelector`, with its string argument. -/
inductive Part where
  | element (v : String)
  | id (v : String)
  | cls (v : String)
  | attr (v : String)
  | pseudoClass (v : String)
  | pseudoElement (v : String)
deriving DecidableEq

/-- The rank passed to `check` by each part-adding method. -/
def Part.rank : Part → Nat
  | .element _ => 1
  | .id _ => 2
  | .cls _ => 3
  | .attr _ => 4
  | .pseudoClass _ => 5
  | .pseudoElement _ => 6

/-- Dispatch one part-adding method call. -/
def MySelector.apply1 (s : MySelector) : Part → Except (SelErr × MySelector) MySelector
  | .element v => s.element v
  | .id v => s.id v
  | .cls v => s.addClass v
  | .attr v => s.attr v
  | .pseudoClass v => s.pseudoClass v
  | .pseudoElement v => s.pseudoElement v

/-- Run a chain of part-adding method calls; the first thrown exception
aborts the chain. -/
def MySelector.applyList (s : MySelector) : List Part → Except (SelErr × MySelector) MySelector
  | [] => .ok s
  | p :: ps =>
    match s.apply1 p with
    | .ok s1 => s1.applyList ps
    | .error e => .error e

/-- The string argument carried by a part. -/
def Part.value : Part → String
  | .element v | .id v | .cls v | .attr v | .pseudoClass v | .pseudoElement v => v

/-- The duplicate-singular test performed by `check` for the method adding
`p`: true exactly when the method's own field is a non-empty string. -/
def MySelector.dupFlag (s : MySelector) : Part → Bool
  | .element _ => decide (s.el.length > 0)
  | .id _ => decide (s.idValue.length > 0)
  | .pseudoElement _ => decide (s.psdEl.length > 0)
  | _ => false

/-- The state produced by a successful part-adding method call. -/
def MySelector.stepState (s : MySelector) : Part → MySelector
  | .element v => { s with el := v, order := 1 }
  | .id v => { s with idValue := v, order := 2 }
  | .cls v => { s with cls := s.cls ++ [v], order := 3 }
  | .attr v => { s with attrValue := s.attrValue ++ [v], order := 4 }
  | .pseudoClass v => { s with psdCls := s.psdCls ++ [v], order := 5 }
  | .pseudoElement v => { s with psdEl := v, order := 6 }

/-- Workhorse characterization of one part-adding method call: the duplicate
test is performed first, then the order test, then the mutation. -/
theorem MySelector.apply1_eq (s : MySelector) (p : Part) :
    s.apply1 p =
      if s.dupFlag p then .error (.duplicate, s)
      else if p.rank < s.order then .error (.orderViolation, s)
      else .ok (s.stepState p) := by
  cases p with
  | element v =>
    simp only [MySelector.apply1, MySelector.element, MySelector.check, MySelector.dupFlag,
      MySelector.stepState, Part.rank]
    by_cases h1 : s.el.length > 0
    · simp [h1, Except.map]
    · by_cases h2 : 1 < s.order <;> simp [h1, h2, Except.map]
  | id v =>
    simp only [MySelector.apply1, MySelector.id, MySelector.check, MySelector.dupFlag,
      MySelector.stepState, Part.rank]
    by_cases h1 : s.idValue.length > 0
    · simp [h1, Except.map]
    · by_cases h2 : 2 < s.order <;> simp [h1, h2, Except.map]
  | pseudoElement v =>
    simp only [MySelector.apply1, MySelector.pseudoElement, MySelector.check, MySelector.dupFlag,
      MySelector.stepState, Part.rank]
    by_cases h1 : s.psdEl.length > 0
    · simp [h1, Except.map]
    · by_cases h2 : 6 < s.order <;> simp [h1, h2, Except.map]
  | cls v =>
    simp only [MySelector.apply1, MySelector.addClass, MySelector.check, MySelector.dupFlag,
      MySelector.stepState, Part.rank]
    by_cases h2 : 3 < s.order <;> simp [h2, Except.map]
  | attr v =>
    simp only [MySelector.apply1, MySelector.attr, MySelector.check, MySelector.dupFlag,
      MySelector.stepState, Part.rank]
    by_cases h2 : 4 < s.order <;> simp [h2, Except.map]
  | pseudoClass v =>
    simp only [MySelector.apply1, MySelector.pseudoClass, MySelector.check, MySelector.dupFlag,
      MySelector.stepState, Part.rank]
    by_cases h2 : 5 < s.order <;> simp [h2, Except.map]

/-- Values added to a given rank category by a list of operations,
in order of addition. -/
def catVals (cat : Nat) (ops : List Part) : List String :=
  ops.filterMap fun p => if p.rank = cat then some p.value else none

theorem catVals_nil (cat : Nat) : catVals cat [] = [] := rfl

theorem catVals_cons (cat : Nat) (p : Part) (ops : List Part) :
    catVals cat (p :: ops) =
      if p.rank = cat then p.value :: catVals cat ops else catVals cat ops := by
  by_cases h : p.rank = cat <;> simp [catVals, List.filterMap_cons, h]

/-- JS assignment semantics for a singular field: the last write wins. -/
def lastWrite (cur : String) (l : List String) : String :=
  l.foldl (fun _ v => v) cur

/-- The value of `order` after a list of successful additions. -/
def lastRank (r : Nat) (ops : List Part) : Nat :=
  ops.foldl (fun _ p => p.rank) r

/-- Ranks along the list of operations are non-decreasing, starting from `r`. -/
def ranksChain (r : Nat) : List Part → Bool
  | [] => true
  | p :: ps => decide (r ≤ p.rank) && ranksChain p.rank ps

/-- A sequence of operations is valid in the sense of the spec: ranks
non-decreasing and each singular category used at most once. -/
def validOps (ops : List Part) : Bool :=
  ranksChain 0 ops && decide ((catVals 1 ops).length ≤ 1)
    && decide ((catVals 2 ops).length ≤ 1) && decide ((catVals 6 ops).length ≤ 1)

/-- Characterization of a successful chain: each field accumulates exactly the
values added to its category. -/
theorem MySelector.applyList_ok (ops : List Part) : ∀ s : MySelector,
    ranksChain s.order ops = true →
    (catVals 1 ops).length ≤ 1 → (s.el = "" ∨ catVals 1 ops = []) →
    (catVals 2 ops).length ≤ 1 → (s.idValue = "" ∨ catVals 2 ops = []) →
    (catVals 6 ops).length ≤ 1 → (s.psdEl = "" ∨ catVals 6 ops = []) →
    s.applyList ops = .ok ⟨lastWrite s.el (catVals 1 ops),
      lastWrite s.idValue (catVals 2 ops),
      s.cls ++ catVals 3 ops,
      s.attrValue ++ catVals 4 ops,
      s.psdCls ++ catVals 5 ops,
      lastWrite s.psdEl (catVals 6 ops),
      lastRank s.order ops⟩ := by
  induction ops with
  | nil =>
    intro s _ _ _ _ _ _ _
    simp [MySelector.applyList, catVals_nil, lastWrite, lastRank]
  | cons p ps ih =>
    intro s hchain hel1 hel2 hid1 hid2 hpe1 hpe2
    simp only [ranksChain, Bool.and_eq_true, decide_eq_true_eq] at hchain
    obtain ⟨hord, hchain'⟩ := hchain
    have hdup : s.dupFlag p = false := by
      cases p with
      | element v =>
        have : s.el = "" := hel2.resolve_right (by simp [catVals_cons, Part.rank])
        simp [MySelector.dupFlag, this]
      | id v =>
        have : s.idValue = "" := hid2.resolve_right (by simp [catVals_cons, Part.rank])
        simp [MySelector.dupFlag, this]
      | pseudoElement v =>
        have : s.psdEl = "" := hpe2.resolve_right (by simp [catVals_cons, Part.rank])
        simp [MySelector.dupFlag, this]
      | cls v => rfl
      | attr v => rfl
      | pseudoClass v => rfl
    rw [MySelector.applyList, MySelector.apply1_eq, hdup, if_neg Bool.false_ne_true,
      if_neg (by omega : ¬ p.rank < s.order)]
    show (s.stepState p).applyList ps = _
    have hstep : (s.stepState p).order = p.rank := by cases p <;> rfl
    have hlen : ∀ cat : Nat, (catVals cat (p :: ps)).length ≤ 1 → (catVals cat ps).length ≤ 1 := by
      intro cat h
      by_cases hc : p.rank = cat
      · rw [catVals_cons, if_pos hc] at h
        simp only [List.length_cons] at h
        omega
      · rw [catVals_cons, if_neg hc] at h
        exact h
    have hnil : ∀ cat : Nat, p.rank = cat → (catVals cat (p :: ps)).length ≤ 1 →
        catVals cat ps = [] := by
      intro cat hc h
      rw [catVals_cons, if_pos hc] at h
      simp only [List.length_cons] at h
      exact List.eq_nil_of_length_eq_zero (by omega)
    have hel2' : (s.stepState p).el = "" ∨ catVals 1 ps = [] := by
      by_cases hc : p.rank = 1
      · exact Or.inr (hnil 1 hc hel1)
      · have he : (s.stepState p).el = s.el := by
          cases p <;> simp_all [MySelector.stepState, Part.rank]
        rcases hel2 with h | h
        · exact Or.inl (he ▸ h)
        · exact Or.inr (by simpa [catVals_cons, hc] using h)
    have hid2' : (s.stepState p).idValue = "" ∨ catVals 2 ps = [] := by
      by_cases hc : p.rank = 2
      · exact Or.inr (hnil 2 hc hid1)
      · have he : (s.stepState p).idValue = s.idValue := by
          cases p <;> simp_all [MySelector.stepState, Part.rank]
        rcases hid2 with h | h
        · exact Or.inl (he ▸ h)
        · exact Or.inr (by simpa [catVals_cons, hc] using h)
    have hpe2' : (s.stepState p).psdEl = "" ∨ catVals 6 ps = [] := by
      by_cases hc : p.rank = 6
      · exact Or.inr (hnil 6 hc hpe1)
      · have he : (s.stepState p).psdEl = s.psdEl := by
          cases p <;> simp_all [MySelector.stepState, Part.rank]
        rcases hpe2 with h | h
        · exact Or.inl (he ▸ h)
        · exact Or.inr (by simpa [catVals_cons, hc] using h)
    rw [ih (s.stepState p) (hstep ▸ hchain') (hlen 1 hel1) hel2' (hlen 2 hid1) hid2'
      (hlen 6 hpe1) hpe2']
    congr 1
    cases p <;>
      simp [MySelector.stepState, catVals_cons, Part.rank, Part.value, lastWrite, lastRank,
        List.append_assoc]

theorem length_pos_of_ne_empty (v : String) (hv : v ≠ "") : 0 < v.length := by
  cases v with
  | mk data =>
    cases data with
    | nil => simp [String.ext_iff] at hv
    | cons c cs => simp [String.length]

/-- Spec-side rendering of a valid operation sequence, following the spec's
words: concatenation in fixed category order of each added part wrapped in
its delimiter, repeated-category values in insertion order. -/
def claimRender (ops : List Part) : String :=
  joinStrs (catVals 1 ops)
    ++ joinStrs ((catVals 2 ops).map fun v => "#" ++ v)
    ++ joinStrs ((catVals 3 ops).map fun v => "." ++ v)
    ++ joinStrs ((catVals 4 ops).map fun v => "[" ++ v ++ "]")
    ++ joinStrs ((catVals 5 ops).map fun v => ":" ++ v)
    ++ joinStrs ((catVals 6 ops).map fun v => "::" ++ v)

theorem transform_singular (L : List String) (hL : L.length ≤ 1)
    (hne : ∀ v ∈ L, v ≠ "") (pre : String) :
    transform (.str (lastWrite "" L)) pre "" = joinStrs (L.map fun v => pre ++ v) := by
  cases L with
  | nil => simp [transform, lastWrite, joinStrs]
  | cons v t =>
    cases t with
    | nil =>
      have hv : v ≠ "" := hne v (by simp)
      simp [transform, lastWrite, joinStrs, hv, String.append_empty]
    | cons w u => simp at hL

theorem lastWrite_bare (L : List String) (hL : L.length ≤ 1) :
    lastWrite "" L = joinStrs L := by
  cases L with
  | nil => rfl
  | cons v t =>
    cases t with
    | nil => simp [lastWrite, joinStrs, String.append_empty]
    | cons w u => simp at hL

theorem map_append_empty (st : String) (l : List String) :
    (l.map fun item => st ++ item ++ "") = l.map fun item => st ++ item := by
  induction l with
  | nil => rfl
  | cons a l ih => simp [ih, String.append_empty]

/-- C1 (amended): for every valid sequence of part-adding operations (ranks
non-decreasing, each singular category used at most once) in which every id
and pseudo-element value is a non-empty string, the chain succeeds and
`stringify` returns the concatenation, in fixed category order, of each added
part wrapped in its delimiter: element bare, id `#`-prefixed, classes
`.`-prefixed, attributes `[`-`]`-wrapped, pseudo-classes `:`-prefixed,
pseudo-element `::`-prefixed, repeated-category values in insertion order. -/
theorem C1_stringify_of_valid_ops (ops : List Part)
    (hvalid : validOps ops = true)
    (hid : ∀ v ∈ catVals 2 ops, v ≠ "")
    (hpe : ∀ v ∈ catVals 6 ops, v ≠ "") :
    ∃ s, MySelector.new.applyList ops = .ok s ∧ s.stringify = claimRender ops := by
  have hv := hvalid
  simp only [validOps, Bool.and_eq_true, decide_eq_true_eq] at hv
  obtain ⟨⟨⟨hchain, h1⟩, h2⟩, h6⟩ := hv
  refine ⟨_, MySelector.applyList_ok ops MySelector.new hchain h1 (Or.inl rfl) h2 (Or.inl rfl)
    h6 (Or.inl rfl), ?_⟩
  show MySelector.stringify _ = claimRender ops
  simp only [MySelector.stringify, MySelector.new, claimRender, List.nil_append]
  rw [lastWrite_bare _ h1, transform_singular _ h2 hid "#", transform_singular _ h6 hpe "::"]
  simp only [transform, map_append_empty]

/-- C1 witness: a concrete valid chain. -/
theorem C1_witness :
    validOps [Part.element "div", Part.id "main", Part.cls "container"] = true ∧
    ∃ s, MySelector.new.applyList [Part.element "div", Part.id "main", Part.cls "container"]
        = .ok s ∧
      s.stringify = claimRender [Part.element "div", Part.id "main", Part.cls "container"] :=
  ⟨by decide,
    C1_stringify_of_valid_ops [Part.element "div", Part.id "main", Part.cls "container"]
      (by decide) (by decide) (by decide)⟩

/-- C1 counterexample: the sequence `[id '']` is valid (ranks non-decreasing,
id used once), yet `stringify` renders the empty string while the claimed
concatenation of each present part wrapped in its delimiter is `#`. -/
theorem C1_cex :
    validOps [Part.id ""] = true ∧
    MySelector.new.applyList [Part.id ""] = .ok ⟨"", "", [], [], [], "", 2⟩ ∧
    MySelector.stringify ⟨"", "", [], [], [], "", 2⟩ = "" ∧
    claimRender [Part.id ""] = "#" :=
  ⟨by decide, by decide, by decide, by decide⟩

/-- C2 (amended): once a singular setter (`element`, `id`, `pseudoElement`)
has succeeded with a non-empty value, invoking the same setter again on the
resulting instance fails with the duplicate-singular-part error, whatever the
second value.  (A first call with the empty string leaves the field falsy and
does not arm the duplicate check.) -/
theorem C2_second_singular_set_fails (s s' : MySelector) (v w : String) (hv : v ≠ "") :
    (s.element v = .ok s' → s'.element w = .error (.duplicate, s')) ∧
    (s.id v = .ok s' → s'.id w = .error (.duplicate, s')) ∧
    (s.pseudoElement v = .ok s' → s'.pseudoElement w = .error (.duplicate, s')) := by
  have hvlen : 0 < v.length := length_pos_of_ne_empty v hv
  refine ⟨?_, ?_, ?_⟩
  · intro h
    rw [show s.element v = s.apply1 (.element v) from rfl, MySelector.apply1_eq] at h
    by_cases h1 : s.dupFlag (.element v) <;> simp [h1] at h
    by_cases h2 : Part.rank (.element v) < s.order <;> simp [h2] at h
    rw [show s'.element w = s'.apply1 (.element w) from rfl, MySelector.apply1_eq,
      if_pos (by simp [← h, MySelector.dupFlag, MySelector.stepState, hvlen])]
  · intro h
    rw [show s.id v = s.apply1 (.id v) from rfl, MySelector.apply1_eq] at h
    by_cases h1 : s.dupFlag (.id v) <;> simp [h1] at h
    by_cases h2 : Part.rank (.id v) < s.order <;> simp [h2] at h
    rw [show s'.id w = s'.apply1 (.id w) from rfl, MySelector.apply1_eq,
      if_pos (by simp [← h, MySelector.dupFlag, MySelector.stepState, hvlen])]
  · intro h
    rw [show s.pseudoElement v = s.apply1 (.pseudoElement v) from rfl,
      MySelector.apply1_eq] at h
    by_cases h1 : s.dupFlag (.pseudoElement v) <;> simp [h1] at h
    by_cases h2 : Part.rank (.pseudoElement v) < s.order <;> simp [h2] at h
    rw [show s'.pseudoElement w = s'.apply1 (.pseudoElement w) from rfl,
      MySelector.apply1_eq,
      if_pos (by simp [← h, MySelector.dupFlag, MySelector.stepState, hvlen])]

/-- C2 witness: after `element('a')` on a fresh selector, `element('b')`
throws the duplicate error. -/
theorem C2_witness :
    MySelector.element ⟨"a", "", [], [], [], "", 1⟩ "b"
      = .error (.duplicate, ⟨"a", "", [], [], [], "", 1⟩) :=
  (C2_second_singular_set_fails MySelector.new ⟨"a", "", [], [], [], "", 1⟩ "a" "b"
    (by decide)).1 (by decide)

/-- C2 counterexample: `element('')` succeeds and leaves `el` empty, so a
second invocation of `element` on the same instance succeeds instead of
failing with the duplicate error. -/
theorem C2_cex :
    MySelector.new.element "" = .ok ⟨"", "", [], [], [], "", 1⟩ ∧
    MySelector.element ⟨"", "", [], [], [], "", 1⟩ "a" = .ok ⟨"a", "", [], [], [], "", 1⟩ :=
  ⟨by decide, by decide⟩

/-- C3 (amended): adding a part whose rank is strictly below `order` fails —
with the order-violation error unless the part's own singular field is
already non-empty, in which case the duplicate error is thrown first; adding
a class, attribute or pseudo-class whose rank is at least `order` (equality
included) succeeds and appends; every successful addition sets `order` to the
part's rank; `id('x').element('y')` fails with the order-violation error. -/
theorem C3_order_enforcement :
    (∀ (s : MySelector) (p : Part), p.rank < s.order →
      s.apply1 p =
        .error ((if s.dupFlag p then SelErr.duplicate else SelErr.orderViolation), s)) ∧
    (∀ (s : MySelector) (v : String), s.order ≤ 3 →
      s.addClass v = .ok { s with cls := s.cls ++ [v], order := 3 }) ∧
    (∀ (s : MySelector) (v : String), s.order ≤ 4 →
      s.attr v = .ok { s with attrValue := s.attrValue ++ [v], order := 4 }) ∧
    (∀ (s : MySelector) (v : String), s.order ≤ 5 →
      s.pseudoClass v = .ok { s with psdCls := s.psdCls ++ [v], order := 5 }) ∧
    (∀ (s : MySelector) (p : Part) (s' : MySelector),
      s.apply1 p = .ok s' → s'.order = p.rank) ∧
    (MySelector.new.id "x").bind (fun s => s.element "y")
      = .error (.orderViolation, ⟨"", "x", [], [], [], "", 2⟩) := by
  refine ⟨?_, ?_, ?_, ?_, ?_, by decide⟩
  · intro s p hlt
    rw [MySelector.apply1_eq]
    by_cases h1 : s.dupFlag p <;> simp [h1, hlt]
  · intro s v hord
    rw [show s.addClass v = s.apply1 (.cls v) from rfl, MySelector.apply1_eq]
    simp [MySelector.dupFlag, MySelector.stepState, Part.rank, Nat.not_lt.mpr hord]
  · intro s v hord
    rw [show s.attr v = s.apply1 (.attr v) from rfl, MySelector.apply1_eq]
    simp [MySelector.dupFlag, MySelector.stepState, Part.rank, Nat.not_lt.mpr hord]
  · intro s v hord
    rw [show s.pseudoClass v = s.apply1 (.pseudoClass v) from rfl, MySelector.apply1_eq]
    simp [MySelector.dupFlag, MySelector.stepState, Part.rank, Nat.not_lt.mpr hord]
  · intro s p s' h
    rw [MySelector.apply1_eq] at h
    by_cases h1 : s.dupFlag p <;> simp [h1] at h
    by_cases h2 : p.rank < s.order <;> simp [h2] at h
    rw [← h]
    cases p <;> rfl

/-- C3 witness: a class added at rank below `order` throws the order error,
and a class added at equal rank succeeds and appends. -/
theorem C3_witness :
    MySelector.apply1 ⟨"", "", [], [], [], "", 6⟩ (Part.cls "a")
      = .error (.orderViolation, ⟨"", "", [], [], [], "", 6⟩) ∧
    MySelector.addClass ⟨"", "", ["a"], [], [], "", 3⟩ "b"
      = .ok ⟨"", "", ["a", "b"], [], [], "", 3⟩ := by
  constructor
  · have h := C3_order_enforcement.1 ⟨"", "", [], [], [], "", 6⟩ (Part.cls "a") (by decide)
    simpa [MySelector.dupFlag] using h
  · exact C3_order_enforcement.2.1 ⟨"", "", ["a"], [], [], "", 3⟩ "b" (by decide)

/-- C3 counterexample: after `element('a').id('b')`, adding `element('c')`
(rank 1, strictly below `order = 2`) fails with the duplicate error, not the
order-violation error the claim names. -/
theorem C3_cex :
    (MySelector.new.element "a").bind (fun s => s.id "b")
      = .ok ⟨"a", "b", [], [], [], "", 2⟩ ∧
    Part.rank (Part.element "c") < 2 ∧
    MySelector.apply1 ⟨"a", "b", [], [], [], "", 2⟩ (Part.element "c")
      = .error (.duplicate, ⟨"a", "b", [], [], [], "", 2⟩) :=
  ⟨by decide, by decide, by decide⟩

/-- C9: error atomicity — whenever a part-adding method throws (duplicate or
order violation), the state carried by the thrown error is exactly the
receiver's state before the call: `check` throws before any mutation. -/
theorem C9_error_atomicity (s : MySelector) (p : Part) (e : SelErr) (s' : MySelector)
    (h : s.apply1 p = .error (e, s')) : s' = s := by
  rw [MySelector.apply1_eq] at h
  by_cases h1 : s.dupFlag p <;> simp [h1] at h
  · exact h.2.symm
  · by_cases h2 : p.rank < s.order <;> simp [h2] at h
    exact h.2.symm

/-- C9 witness: a concrete failing call, whose error state the theorem
equates with the pre-call state. -/
theorem C9_witness :
    MySelector.apply1 ⟨"", "", [], [], [], "", 6⟩ (Part.id "y")
      = .error (.orderViolation, ⟨"", "", [], [], [], "", 6⟩) ∧
    (⟨"", "", [], [], [], "", 6⟩ : MySelector) = ⟨"", "", [], [], [], "", 6⟩ :=
  ⟨by decide,
    C9_error_atomicity ⟨"", "", [], [], [], "", 6⟩ (Part.id "y") .orderViolation
      ⟨"", "", [], [], [], "", 6⟩ (by decide)⟩

/-- `stringify()` on `MySelector` with the receiver state threaded through:
the body (lines 188-192) only reads fields — `strEl` and `res` are locals —
so the method returns its result together with the unchanged receiver. -/
def MySelector.stringifySt (s : MySelector) : String × MySelector :=
  let strEl := s.el
  let res := strEl ++ transform (.str s.idValue) "#" "" ++ transform (.arr s.cls) "." ""
    ++ transform (.arr s.attrValue) "[" "]" ++ transform (.arr s.psdCls) ":" ""
    ++ transform (.str s.psdEl) "::" ""
  (res, s)

/-- `stringify()` on a selector tree with state threaded: a combined node
(lines 195-199) invokes `stringify` on both children and reads `c`. -/
def Selector.stringifySt : Selector → String × Selector
  | .simple s => ((s.stringifySt).1, .simple (s.stringifySt).2)
  | .combined s1 c s2 =>
    ((s1.stringifySt).1 ++ " " ++ c ++ " " ++ (s2.stringifySt).1,
      .combined (s1.stringifySt).2 c (s2.stringifySt).2)

/-- C5: `stringify` is pure and repeatable — on any selector node it returns
the rendered string, leaves every field of the node (recursively) unchanged,
and a repeated invocation returns the identical string. -/
theorem C5_stringify_pure (t : Selector) :
    t.stringifySt = (t.stringify, t) ∧
    ((t.stringifySt).2).stringifySt.1 = (t.stringifySt).1 := by
  have h : ∀ u : Selector, u.stringifySt = (u.stringify, u) := by
    intro u
    induction u with
    | simple s => rfl
    | combined s1 c s2 ih1 ih2 =>
      simp [Selector.stringifySt, Selector.stringify, ih1, ih2]
  exact ⟨h t, by rw [h t, h t]⟩

/-- C4: a combined selector renders as `left.stringify() + ' ' + c + ' ' +
right.stringify()` for arbitrary (arbitrarily nested) children; in
particular `combine(element('div').id('main'), '+',
element('table').id('data'))` renders `div#main + table#data`. -/
theorem C4_combined_stringify :
    (∀ (l r : Selector) (c : String),
      (Selector.combined l c r).stringify = l.stringify ++ " " ++ c ++ " " ++ r.stringify) ∧
    (MySelector.new.element "div").bind (fun s => s.id "main")
      = .ok ⟨"div", "main", [], [], [], "", 2⟩ ∧
    (MySelector.new.element "table").bind (fun s => s.id "data")
      = .ok ⟨"table", "data", [], [], [], "", 2⟩ ∧
    (cssSelectorBuilder.combine (.simple ⟨"div", "main", [], [], [], "", 2⟩) "+"
        (.simple ⟨"table", "data", [], [], [], "", 2⟩)).stringify
      = "div#main + table#data" :=
  ⟨fun _ _ _ => rfl, by decide, by decide, by decide⟩

/-- C10: `combine` performs no validation — for every two selector nodes and
every combinator string, including tokens outside `' '`, `'>'`, `'+'`, `'~'`,
it returns the combined node, whose `stringify` embeds the token verbatim
between single spaces. -/
theorem C10_combine_total (l r : Selector) (c : String) :
    cssSelectorBuilder.combine l c r = Selector.combined l c r ∧
    (cssSelectorBuilder.combine l c r).stringify
      = l.stringify ++ " " ++ c ++ " " ++ r.stringify ∧
    (cssSelectorBuilder.combine (.simple ⟨"a", "", [], [], [], "", 1⟩) "@?!"
        (.simple ⟨"b", "", [], [], [], "", 1⟩)).stringify = "a @?! b" :=
  ⟨rfl, rfl, by decide⟩

/-- Chain label: which of two independent build chains an operation targets. -/
inductive Tag where
  | A
  | B
deriving DecidableEq

/-- A part-adding call as it leaves the receiver: the new state on success,
the state at the throw (unchanged, by `C9`-style reasoning) on error. -/
def applyJS (s : MySelector) (p : Part) : MySelector :=
  match s.apply1 p with
  | .ok s' => s'
  | .error (_, s') => s'

/-- Two independent selector chains living side by side. -/
structure World where
  a : MySelector
  b : MySelector

/-- An interleaved operation touches only the instance of its own chain —
each facade call created a separate `MySelector`, and the methods mutate
`this` only. -/
def World.step (w : World) : Tag × Part → World
  | (.A, p) => { w with a := applyJS w.a p }
  | (.B, p) => { w with b := applyJS w.b p }

/-- Run an interleaving of operations of the two chains. -/
def World.run (w : World) (ops : List (Tag × Part)) : World :=
  ops.foldl World.step w

/-- The subsequence of operations belonging to one chain. -/
def chainOps (t : Tag) (ops : List (Tag × Part)) : List Part :=
  ops.filterMap fun x => if x.1 = t then some x.2 else none

/-- Run one chain in isolation. -/
def runChain (s : MySelector) (ops : List Part) : MySelector :=
  ops.foldl applyJS s

theorem chainOps_cons (t : Tag) (x : Tag × Part) (xs : List (Tag × Part)) :
    chainOps t (x :: xs) =
      if x.1 = t then x.2 :: chainOps t xs else chainOps t xs := by
  by_cases h : x.1 = t <;> simp [chainOps, List.filterMap_cons, h]

/-- C6: every facade entry method builds on a brand-new `MySelector`, and in
any interleaving of two chains each chain's final state is exactly the state
reached by its own operations run in isolation — operations of one chain
never change the state (hence never the rendered output) of the other. -/
theorem C6_no_shared_state :
    (∀ v, cssSelectorBuilder.element v = MySelector.new.element v) ∧
    (∀ v, cssSelectorBuilder.id v = MySelector.new.id v) ∧
    (∀ v, cssSelectorBuilder.addClass v = MySelector.new.addClass v) ∧
    (∀ v, cssSelectorBuilder.attr v = MySelector.new.attr v) ∧
    (∀ v, cssSelectorBuilder.pseudoClass v = MySelector.new.pseudoClass v) ∧
    (∀ v, cssSelectorBuilder.pseudoElement v = MySelector.new.pseudoElement v) ∧
    (∀ (w : World) (ops : List (Tag × Part)),
      (w.run ops).a = runChain w.a (chainOps .A ops) ∧
      (w.run ops).b = runChain w.b (chainOps .B ops)) := by
  refine ⟨fun _ => rfl, fun _ => rfl, fun _ => rfl, fun _ => rfl, fun _ => rfl, fun _ => rfl, ?_⟩
  intro w ops
  induction ops generalizing w with
  | nil => exact ⟨rfl, rfl⟩
  | cons x xs ih =>
    obtain ⟨t, p⟩ := x
    obtain ⟨ha, hb⟩ := ih (w.step (t, p))
    cases t with
    | A =>
      constructor
      · show ((w.step (.A, p)).run xs).a = _
        rw [ha]
        simp [chainOps_cons, World.step, runChain]
      · show ((w.step (.A, p)).run xs).b = _
        rw [hb]
        simp [chainOps_cons, World.step]
    | B =>
      constructor
      · show ((w.step (.B, p)).run xs).a = _
        rw [ha]
        simp [chainOps_cons, World.step]
      · show ((w.step (.B, p)).run xs).b = _
        rw [hb]
        simp [chainOps_cons, World.step, runChain]

/-- The object built by the `Rectangle` constructor. -/
structure RectangleObj where
  width : Int
  height : Int
  getArea : Unit → Int

/-- `Rectangle(width, height)` (lines 23-27): stores `width` and `height` and
installs `getArea`, a closure over the constructor parameters returning
`width * height`.  JS numbers are modelled as integers; the method body is
the exact product expression of the two parameters. -/
def Rectangle (width height : Int) : RectangleObj :=
  { width := width, height := height, getArea := fun _ => width * height }

/-- C7: for every pair of numbers, the constructed rectangle exposes the two
parameters as `width` and `height` and `getArea()` returns their product. -/
theorem C7_rectangle (w h : Int) :
    (Rectangle w h).width = w ∧ (Rectangle w h).height = h ∧
    (Rectangle w h).getArea () = w * h :=
  ⟨rfl, rfl, rfl⟩

/-! ### JSON values and the host serializer model

`getJSON` and `fromJSON` (lines 40-42 and 56-60) delegate to the host's
`JSON.stringify` / `JSON.parse`.  Modelled from the spec: the host JSON
serializer is embedded as an executable encoder and parser over JSON values
(numbers modelled as integers, objects as ordered field lists). -/

/-- A decimal digit character. -/
def digitChar : Nat → Char
  | 0 => '0' | 1 => '1' | 2 => '2' | 3 => '3' | 4 => '4'
  | 5 => '5' | 6 => '6' | 7 => '7' | 8 => '8' | _ => '9'

/-- Numeric value of a decimal digit character. -/
def digitVal (c : Char) : Nat := c.toNat - 48

theorem digitVal_digitChar (d : Nat) (h : d < 10) : digitVal (digitChar d) = d := by
  interval_cases d <;> decide

theorem isDigit_digitChar (d : Nat) (h : d < 10) : (digitChar d).isDigit = true := by
  interval_cases d <;> decide

theorem isDigit_ne (c : Char) (h : c.isDigit = true) (d : Char) (hd : d.isDigit = false) :
    c ≠ d := by
  intro he
  subst he
  simp [h] at hd

/-- Decimal digits of a natural number, most significant first, with fuel
(the fuel `n + 1` always suffices). -/
def natDigitsF : Nat → Nat → List Char
  | 0, _ => []
  | fuel + 1, n =>
    if n < 10 then [digitChar n] else natDigitsF fuel (n / 10) ++ [digitChar (n % 10)]

theorem natDigitsF_eq : ∀ (n fuel fuel' : Nat), n < fuel → n < fuel' →
    natDigitsF fuel n = natDigitsF fuel' n := by
  intro n
  induction n using Nat.strong_induction_on with
  | _ n ih =>
    intro fuel fuel' h h'
    match fuel, fuel' with
    | f + 1, f' + 1 =>
      simp only [natDigitsF]
      by_cases h10 : n < 10
      · simp [h10]
      · have hpos : 0 < n := by omega
        have hdiv : n / 10 < n := Nat.div_lt_self hpos (by decide)
        simp only [h10, if_false]
        rw [ih (n / 10) hdiv f f' (by omega) (by omega)]

/-- Decimal digits of a natural number, most significant first. -/
def natDigits (n : Nat) : List Char := natDigitsF (n + 1) n

theorem natDigits_lt (n : Nat) (h : n < 10) : natDigits n = [digitChar n] := by
  simp [natDigits, natDigitsF, h]

theorem natDigits_ge (n : Nat) (h : 10 ≤ n) :
    natDigits n = natDigits (n / 10) ++ [digitChar (n % 10)] := by
  have hpos : 0 < n := by omega
  have hdiv : n / 10 < n := Nat.div_lt_self hpos (by decide)
  rw [natDigits, natDigits, natDigitsF, if_neg (by omega)]
  rw [natDigitsF_eq (n / 10) n (n / 10 + 1) hdiv (by omega)]

theorem natDigits_digits (n : Nat) : ∀ c ∈ natDigits n, c.isDigit = true := by
  induction n using Nat.strong_induction_on with
  | _ n ih =>
    by_cases h : n < 10
    · rw [natDigits_lt n h]
      intro c hc
      simp at hc
      subst hc
      exact isDigit_digitChar n h
    · rw [natDigits_ge n (by omega)]
      intro c hc
      rcases List.mem_append.mp hc with hc | hc
      · exact ih (n / 10) (Nat.div_lt_self (by omega) (by decide)) c hc
      · simp at hc
        subst hc
        exact isDigit_digitChar _ (Nat.mod_lt n (by decide))

theorem natDigits_head (n : Nat) : ∃ c cs, natDigits n = c :: cs ∧ c.isDigit = true := by
  induction n using Nat.strong_induction_on with
  | _ n ih =>
    by_cases h : n < 10
    · exact ⟨digitChar n, [], natDigits_lt n h, isDigit_digitChar n h⟩
    · obtain ⟨c, cs, hcons, hdig⟩ := ih (n / 10) (Nat.div_lt_self (by omega) (by decide))
      exact ⟨c, cs ++ [digitChar (n % 10)], by rw [natDigits_ge n (by omega), hcons]; rfl, hdig⟩

/-- Value of a digit string read left to right, with accumulator. -/
def digitsToNat : Nat → List Char → Nat
  | acc, [] => acc
  | acc, c :: cs => digitsToNat (acc * 10 + digitVal c) cs

theorem digitsToNat_nil (acc : Nat) : digitsToNat acc [] = acc := rfl

theorem digitsToNat_cons (acc : Nat) (c : Char) (cs : List Char) :
    digitsToNat acc (c :: cs) = digitsToNat (acc * 10 + digitVal c) cs := rfl

theorem digitsToNat_append (acc : Nat) (xs ys : List Char) :
    digitsToNat acc (xs ++ ys) = digitsToNat (digitsToNat acc xs) ys := by
  induction xs generalizing acc with
  | nil => rfl
  | cons c cs ih => exact ih (acc * 10 + digitVal c)

theorem digitsToNat_natDigits (n : Nat) : ∀ acc : Nat,
    digitsToNat acc (natDigits n) = acc * 10 ^ (natDigits n).length + n := by
  induction n using Nat.strong_induction_on with
  | _ n ih =>
    intro acc
    by_cases h : n < 10
    · rw [natDigits_lt n h, digitsToNat_cons, digitsToNat_nil, digitVal_digitChar n h]
      simp [pow_one]
    · rw [natDigits_ge n (by omega), digitsToNat_append]
      rw [ih (n / 10) (Nat.div_lt_self (by omega) (by decide))]
      rw [digitsToNat_cons, digitsToNat_nil, digitVal_digitChar _ (Nat.mod_lt n (by decide))]
      simp only [List.length_append, List.length_cons, List.length_nil, Nat.zero_add]
      have key : n / 10 * 10 + n % 10 = n := by omega
      calc (acc * 10 ^ (natDigits (n / 10)).length + n / 10) * 10 + n % 10
          = acc * (10 ^ (natDigits (n / 10)).length * 10) + (n / 10 * 10 + n % 10) := by ring
        _ = acc * 10 ^ ((natDigits (n / 10)).length + 1) + n := by rw [key, pow_succ]

theorem digitsToNat_natDigits_zero (n : Nat) : digitsToNat 0 (natDigits n) = n := by
  rw [digitsToNat_natDigits n 0]
  ring

/-- Greedy scan of leading decimal digits. -/
def spanDigits : List Char → List Char × List Char
  | [] => ([], [])
  | c :: cs =>
    if c.isDigit then
      let r := spanDigits cs
      (c :: r.1, r.2)
    else ([], c :: cs)

/-- The continuation does not start with a digit (so a greedy digit scan
stops exactly at the boundary). -/
def noDigitHead : List Char → Bool
  | [] => true
  | c :: _ => !c.isDigit

theorem spanDigits_append (ds rest : List Char) (hd : ∀ c ∈ ds, c.isDigit = true)
    (hr : noDigitHead rest = true) : spanDigits (ds ++ rest) = (ds, rest) := by
  induction ds with
  | nil =>
    cases rest with
    | nil => rfl
    | cons c cs =>
      simp [noDigitHead] at hr
      simp [spanDigits, hr]
  | cons d ds ih =>
    have hdd : d.isDigit = true := hd d (by simp)
    simp [spanDigits, hdd, ih (fun c hc => hd c (by simp [hc]))]

/-- Match an expected prefix, returning the remainder. -/
def stripPre : List Char → List Char → Option (List Char)
  | [], input => some input
  | _ :: _, [] => none
  | c :: cs, d :: ds => if c = d then stripPre cs ds else none

theorem stripPre_append (pre rest : List Char) : stripPre pre (pre ++ rest) = some rest := by
  induction pre with
  | nil => rfl
  | cons c cs ih => simp [stripPre, ih]

/-- JSON string escaping of one character (the model escapes the quote and
the backslash, the two characters the encoder must escape to stay
parseable). -/
def escapeChar (c : Char) : List Char :=
  if c = '"' ∨ c = '\\' then ['\\', c] else [c]

/-- JSON string escaping of a character sequence. -/
def escList : List Char → List Char
  | [] => []
  | c :: cs => escapeChar c ++ escList cs

mutual

/-- Parse a JSON string body (after the opening quote) up to the closing
unescaped quote, undoing escapes (`parseStrEsc` handles the character after
a backslash). -/
def parseStrBody : List Char → Option (List Char × List Char)
  | [] => none
  | c :: rest =>
    if c = '\\' then parseStrEsc rest
    else if c = '"' then some ([], rest)
    else (parseStrBody rest).map fun p => (c :: p.1, p.2)

/-- Continuation of `parseStrBody` after a backslash. -/
def parseStrEsc : List Char → Option (List Char × List Char)
  | [] => none
  | d :: rest => (parseStrBody rest).map fun p => (d :: p.1, p.2)

end

theorem parseStrBody_escList (cs rest : List Char) :
    parseStrBody (escList cs ++ '"' :: rest) = some (cs, rest) := by
  induction cs with
  | nil => simp [escList, parseStrBody]
  | cons c cs ih =>
    by_cases h : c = '"' ∨ c = '\\'
    · simp only [escList, escapeChar, if_pos h, List.cons_append, List.append_assoc]
      simp [parseStrBody, parseStrEsc, ih]
    · push_neg at h
      simp only [escList, escapeChar, if_neg (by tauto), List.cons_append,
        List.singleton_append]
      simp [parseStrBody, h.1, h.2, ih]

/-- JSON values: the plain structures handled by the host serializer.
Numbers are modelled as integers, objects as ordered field lists. -/
inductive Json where
  | null
  | bool (b : Bool)
  | num (n : Int)
  | str (s : String)
  | arr (elems : List Json)
  | obj (fields : List (String × Json))

/-- Decimal encoding of an integer. -/
def encodeInt (n : Int) : List Char :=
  if n < 0 then '-' :: natDigits (-n).toNat else natDigits n.toNat

/-- The keyword `null` as characters. -/
def litNull : List Char := ['n', 'u', 'l', 'l']

/-- The keyword `true` as characters. -/
def litTrue : List Char := ['t', 'r', 'u', 'e']

/-- The keyword `false` as characters. -/
def litFalse : List Char := ['f', 'a', 'l', 's', 'e']

mutual

/-- Modelled from the spec: the host `JSON.stringify` — canonical JSON text
of a value, as a character list. -/
def encodeJson : Json → List Char
  | .null => litNull
  | .bool true => litTrue
  | .bool false => litFalse
  | .num n => encodeInt n
  | .str s => '"' :: (escList s.data ++ ['"'])
  | .arr l => '[' :: (encodeElems l ++ [']'])
  | .obj fs => '\x7b' :: (encodeMembers fs ++ ['\x7d'])

/-- Encode array elements, comma-separated. -/
def encodeElems : List Json → List Char
  | [] => []
  | [v] => encodeJson v
  | v :: vs => encodeJson v ++ ',' :: encodeElems vs

/-- Encode object members, comma-separated quoted-key/value pairs. -/
def encodeMembers : List (String × Json) → List Char
  | [] => []
  | [(k, v)] => '"' :: (escList k.data ++ '"' :: ':' :: encodeJson v)
  | (k, v) :: fs =>
    '"' :: (escList k.data ++ '"' :: ':' :: encodeJson v ++ ',' :: encodeMembers fs)

end

mutual

/-- Parser fuel measure of a value. -/
def sizeJ : Json → Nat
  | .null => 1
  | .bool _ => 1
  | .num _ => 1
  | .str _ => 1
  | .arr l => 1 + sizeElems l
  | .obj fs => 1 + sizeMembers fs

/-- Parser fuel measure of an element list. -/
def sizeElems : List Json → Nat
  | [] => 1
  | v :: vs => sizeJ v + sizeElems vs

/-- Parser fuel measure of a member list. -/
def sizeMembers : List (String × Json) → Nat
  | [] => 1
  | (_, v) :: fs => sizeJ v + sizeMembers fs

end

mutual

/-- Modelled from the spec: the host `JSON.parse` — fueled recursive-descent
parser for one JSON value, returning the value and the remaining input. -/
def parseVal : Nat → List Char → Option (Json × List Char)
  | 0, _ => none
  | fuel + 1, input =>
    match input with
    | [] => none
    | c :: rest =>
      if c = 'n' then (stripPre ['u', 'l', 'l'] rest).map fun r => (.null, r)
      else if c = 't' then (stripPre ['r', 'u', 'e'] rest).map fun r => (.bool true, r)
      else if c = 'f' then (stripPre ['a', 'l', 's', 'e'] rest).map fun r => (.bool false, r)
      else if c = '"' then (parseStrBody rest).map fun p => (.str (String.mk p.1), p.2)
      else if c = '[' then (parseElems fuel rest).map fun p => (.arr p.1, p.2)
      else if c = '\x7b' then (parseMembers fuel rest).map fun p => (.obj p.1, p.2)
      else if c = '-' then
        let p := spanDigits rest
        if p.1 = [] then none
        else some (.num (-(Int.ofNat (digitsToNat 0 p.1))), p.2)
      else if c.isDigit then
        let p := spanDigits (c :: rest)
        some (.num (Int.ofNat (digitsToNat 0 p.1)), p.2)
      else none

/-- Parse the elements of an array after the opening bracket. -/
def parseElems : Nat → List Char → Option (List Json × List Char)
  | 0, _ => none
  | fuel + 1, input =>
    match input with
    | [] => none
    | c :: r =>
      if c = ']' then some ([], r)
      else
        (parseVal fuel (c :: r)).bind fun p =>
          match p.2 with
          | [] => none
          | c2 :: r2 =>
            if c2 = ',' then (parseElems fuel r2).map fun q => (p.1 :: q.1, q.2)
            else if c2 = ']' then some ([p.1], r2)
            else none

/-- Parse the members of an object after the opening brace. -/
def parseMembers : Nat → List Char → Option (List (String × Json) × List Char)
  | 0, _ => none
  | fuel + 1, input =>
    match input with
    | [] => none
    | c :: r =>
      if c = '\x7d' then some ([], r)
      else if c = '"' then
        (parseStrBody r).bind fun kp =>
          match kp.2 with
          | [] => none
          | c2 :: r2 =>
            if c2 = ':' then
              (parseVal fuel r2).bind fun p =>
                match p.2 with
                | [] => none
                | c3 :: r3 =>
                  if c3 = ',' then
                    (parseMembers fuel r3).map fun q => ((String.mk kp.1, p.1) :: q.1, q.2)
                  else if c3 = '\x7d' then some ([(String.mk kp.1, p.1)], r3)
                  else none
            else none
      else none

end

/-- `getJSON(obj)` (lines 40-42): delegation to the host serializer model. -/
def getJSON (obj : Json) : String := String.mk (encodeJson obj)

/-- Modelled from the spec: `JSON.parse` of a complete JSON text (the whole
input must be consumed). -/
def JSONparse (text : String) : Option Json :=
  match parseVal (text.data.length + 1) text.data with
  | some (v, []) => some v
  | _ => none

/-- `fromJSON(proto, json)` (lines 56-60): parse the text, then attach the
given prototype to the decoded structure (`Object.setPrototypeOf`): the
decoded value keeps exactly its parsed own fields, paired with the
prototype that now heads its method-resolution chain. -/
def fromJSON {α : Type} (proto : α) (json : String) : Option (Json × α) :=
  (JSONparse json).map fun v => (v, proto)

theorem mk_data (s : String) : String.mk s.data = s := rfl

theorem sizeJ_pos (v : Json) : 1 ≤ sizeJ v := by
  cases v <;> simp [sizeJ]

theorem sizeElems_pos (l : List Json) : 1 ≤ sizeElems l := by
  cases l with
  | nil => simp [sizeElems]
  | cons v vs => have := sizeJ_pos v; simp [sizeElems]; omega

theorem sizeMembers_pos (fs : List (String × Json)) : 1 ≤ sizeMembers fs := by
  cases fs with
  | nil => simp [sizeMembers]
  | cons kv fs =>
    obtain ⟨k, v⟩ := kv
    have := sizeJ_pos v
    simp [sizeMembers]
    omega

theorem encodeInt_head (n : Int) :
    ∃ c cs, encodeInt n = c :: cs ∧ (c = ']') = False := by
  unfold encodeInt
  split
  · exact ⟨'-', _, rfl, by simp⟩
  · obtain ⟨c, cs, hcons, hdig⟩ := natDigits_head n.toNat
    exact ⟨c, cs, hcons, by simp [isDigit_ne c hdig ']' (by decide)]⟩

/-- The first character of any encoded value; it is never `]` (needed to show
the array-element parser takes its non-empty branch). -/
theorem encode_head (v : Json) :
    ∃ c cs, encodeJson v = c :: cs ∧ (c = ']') = False := by
  cases v with
  | null => exact ⟨'n', _, rfl, by simp⟩
  | bool b => cases b
              · exact ⟨'f', _, rfl, by simp⟩
              · exact ⟨'t', _, rfl, by simp⟩
  | num n => simpa [encodeJson] using encodeInt_head n
  | str s => exact ⟨'"', _, rfl, by simp⟩
  | arr l => exact ⟨'[', _, rfl, by simp⟩
  | obj fs => exact ⟨'\x7b', _, rfl, by simp⟩

theorem encodeInt_length_pos (n : Int) : 0 < (encodeInt n).length := by
  obtain ⟨c, cs, hcons, _⟩ := encodeInt_head n
  simp [hcons]

theorem elems_bound (l : List Json)
    (hIH : ∀ v ∈ l, sizeJ v ≤ (encodeJson v).length) :
    sizeElems l ≤ (encodeElems l).length + 1 := by
  induction l with
  | nil => simp [sizeElems, encodeElems]
  | cons v vs ih =>
    have h1 := hIH v (by simp)
    cases vs with
    | nil => simp [sizeElems, encodeElems]; omega
    | cons w ws =>
      have h2 := ih (fun x hx => hIH x (by simp [hx]))
      simp [sizeElems, encodeElems] at h2 ⊢
      omega

theorem members_bound (fs : List (String × Json))
    (hIH : ∀ kv ∈ fs, sizeJ kv.2 ≤ (encodeJson kv.2).length) :
    sizeMembers fs ≤ (encodeMembers fs).length + 1 := by
  induction fs with
  | nil => simp [sizeMembers, encodeMembers]
  | cons kv gs ih =>
    obtain ⟨k, v⟩ := kv
    have h1 : sizeJ v ≤ (encodeJson v).length := hIH (k, v) (by simp)
    cases gs with
    | nil => simp [sizeMembers, encodeMembers]; omega
    | cons kw gs' =>
      have h2 := ih (fun x hx => hIH x (by simp [hx]))
      simp [sizeMembers, encodeMembers] at h2 ⊢
      omega

/-- Structural induction on JSON values, recursing through the element and
member lists. -/
theorem json_ind (motive : Json → Prop)
    (hnull : motive .null) (hbool : ∀ b, motive (.bool b)) (hnum : ∀ n, motive (.num n))
    (hstr : ∀ s, motive (.str s))
    (harr : ∀ l, (∀ v ∈ l, motive v) → motive (.arr l))
    (hobj : ∀ fs, (∀ kv ∈ fs, motive kv.2) → motive (.obj fs)) :
    ∀ v, motive v := by
  have key : ∀ (n : Nat) (v : Json), sizeOf v ≤ n → motive v := by
    intro n
    induction n with
    | zero => intro v h; cases v <;> simp at h
    | succ n ih =>
      intro v _
      cases v with
      | null => exact hnull
      | bool b => exact hbool b
      | num m => exact hnum m
      | str s => exact hstr s
      | arr l =>
        refine harr l fun x hx => ih x ?_
        have h1 : sizeOf x < sizeOf l := List.sizeOf_lt_of_mem hx
        have h2 : sizeOf l ≤ sizeOf (Json.arr l) := by simp
        have h3 : sizeOf (Json.arr l) ≤ n + 1 := by assumption
        omega
      | obj fs =>
        refine hobj fs fun kv hkv => ih kv.2 ?_
        have h1 : sizeOf kv < sizeOf fs := List.sizeOf_lt_of_mem hkv
        have h2 : sizeOf kv.2 < sizeOf kv := by
          obtain ⟨k, v2⟩ := kv
          simp
        have h3 : sizeOf fs ≤ sizeOf (Json.obj fs) := by simp
        have h4 : sizeOf (Json.obj fs) ≤ n + 1 := by assumption
        omega
  exact fun v => key (sizeOf v) v le_rfl

/-- The fuel measure of a value is at most the length of its encoding. -/
theorem sizeJ_le_encode : ∀ v : Json, sizeJ v ≤ (encodeJson v).length := by
  refine json_ind _ ?_ ?_ ?_ ?_ ?_ ?_
  · simp [sizeJ, encodeJson, litNull]
  · intro b; cases b <;> simp [sizeJ, encodeJson, litTrue, litFalse]
  · intro n
    have := encodeInt_length_pos n
    simp [sizeJ, encodeJson]
    omega
  · intro s; simp [sizeJ, encodeJson]
  · intro l hIH
    have := elems_bound l hIH
    simp [sizeJ, encodeJson]
    omega
  · intro fs hIH
    have := members_bound fs hIH
    simp [sizeJ, encodeJson]
    omega

/-- Roundtrip: with enough fuel, parsing the encoding of any value (element
list, member list) consumes exactly the encoding and returns the value. -/
theorem parse_encode_trio : ∀ fuel : Nat,
    (∀ (v : Json) (rest : List Char), sizeJ v ≤ fuel → noDigitHead rest = true →
      parseVal fuel (encodeJson v ++ rest) = some (v, rest)) ∧
    (∀ (l : List Json) (rest : List Char), sizeElems l ≤ fuel →
      parseElems fuel (encodeElems l ++ ']' :: rest) = some (l, rest)) ∧
    (∀ (fs : List (String × Json)) (rest : List Char), sizeMembers fs ≤ fuel →
      parseMembers fuel (encodeMembers fs ++ '\x7d' :: rest) = some (fs, rest)) := by
  intro fuel
  induction fuel with
  | zero =>
    refine ⟨fun v rest h _ => ?_, fun l rest h => ?_, fun fs rest h => ?_⟩
    · have := sizeJ_pos v; omega
    · have := sizeElems_pos l; omega
    · have := sizeMembers_pos fs; omega
  | succ fuel ih =>
    obtain ⟨ihP, ihQ, ihR⟩ := ih
    have hndClose : noDigitHead (']' :: ([] : List Char)) = true := rfl
    refine ⟨?_, ?_, ?_⟩
    · intro v rest hsz hnd
      cases v with
      | null => simp [encodeJson, litNull, parseVal, stripPre]
      | bool b => cases b <;> simp [encodeJson, litTrue, litFalse, parseVal, stripPre]
      | num n =>
        by_cases hneg : n < 0
        · simp only [encodeJson, encodeInt, if_pos hneg, List.cons_append, parseVal]
          rw [spanDigits_append _ rest (natDigits_digits _) hnd]
          have hnn : natDigits (-n).toNat ≠ [] := by
            obtain ⟨c, cs, hcons, _⟩ := natDigits_head (-n).toNat
            simp [hcons]
          simp [hnn, digitsToNat_natDigits_zero]
          omega
        · simp only [encodeJson, encodeInt, if_neg hneg]
          obtain ⟨c, cs, hcons, hdig⟩ := natDigits_head n.toNat
          rw [hcons]
          simp only [List.cons_append, parseVal]
          rw [if_neg (isDigit_ne c hdig 'n' (by decide)),
            if_neg (isDigit_ne c hdig 't' (by decide)),
            if_neg (isDigit_ne c hdig 'f' (by decide)),
            if_neg (isDigit_ne c hdig '"' (by decide)),
            if_neg (isDigit_ne c hdig '[' (by decide)),
            if_neg (isDigit_ne c hdig '\x7b' (by decide)),
            if_neg (isDigit_ne c hdig '-' (by decide)),
            if_pos hdig]
          rw [show c :: (cs ++ rest) = natDigits n.toNat ++ rest by rw [hcons]; rfl]
          rw [spanDigits_append _ rest (natDigits_digits _) hnd]
          simp [digitsToNat_natDigits_zero]
          omega
      | str s =>
        simp only [encodeJson, List.cons_append, parseVal]
        rw [show escList s.data ++ ['"'] ++ rest = escList s.data ++ '"' :: rest by simp]
        simp [parseStrBody_escList, mk_data]
      | arr l =>
        have h' : sizeElems l ≤ fuel := by simp [sizeJ] at hsz; omega
        simp only [encodeJson, List.cons_append, parseVal]
        rw [show encodeElems l ++ [']'] ++ rest = encodeElems l ++ ']' :: rest by simp]
        simp [ihQ l rest h']
      | obj fs =>
        have h' : sizeMembers fs ≤ fuel := by simp [sizeJ] at hsz; omega
        simp only [encodeJson, List.cons_append, parseVal]
        rw [show encodeMembers fs ++ ['\x7d'] ++ rest = encodeMembers fs ++ '\x7d' :: rest
          by simp]
        simp [ihR fs rest h']
    · intro l rest hsz
      cases l with
      | nil => simp [encodeElems, parseElems]
      | cons v vs =>
        obtain ⟨c, cs, hcons, hne1⟩ := encode_head v
        cases vs with
        | nil =>
          have hszv : sizeJ v ≤ fuel := by simp [sizeElems] at hsz; omega
          have hv := ihP v (']' :: rest) hszv rfl
          simp only [encodeElems]
          rw [hcons]
          simp only [List.cons_append, parseElems]
          rw [if_neg (by simp [hne1])]
          rw [show c :: (cs ++ ']' :: rest) = encodeJson v ++ ']' :: rest by rw [hcons]; rfl]
          rw [hv]
          simp
        | cons w ws =>
          have hpv := sizeJ_pos v
          have hpw := sizeJ_pos w
          simp only [sizeElems] at hsz
          have hszv : sizeJ v ≤ fuel := by omega
          have hszvs : sizeElems (w :: ws) ≤ fuel := by simp only [sizeElems]; omega
          have hv := ihP v (',' :: (encodeElems (w :: ws) ++ ']' :: rest)) hszv rfl
          have hvs := ihQ (w :: ws) rest hszvs
          simp only [encodeElems]
          rw [hcons]
          simp only [List.cons_append, List.append_assoc, parseElems]
          rw [if_neg (by simp [hne1])]
          rw [show c :: (cs ++ (',' :: (encodeElems (w :: ws) ++ ']' :: rest)))
              = encodeJson v ++ ',' :: (encodeElems (w :: ws) ++ ']' :: rest)
            by rw [hcons]; simp]
          rw [hv]
          simp [hvs]
    · intro fs rest hsz
      cases fs with
      | nil => simp [encodeMembers, parseMembers]
      | cons kv gs =>
        obtain ⟨k, v⟩ := kv
        cases gs with
        | nil =>
          have hszv : sizeJ v ≤ fuel := by simp [sizeMembers] at hsz; omega
          have hv := ihP v ('\x7d' :: rest) hszv rfl
          simp only [encodeMembers, List.cons_append, parseMembers]
          rw [show escList k.data ++ '"' :: ':' :: encodeJson v ++ '\x7d' :: rest
              = escList k.data ++ '"' :: (':' :: (encodeJson v ++ '\x7d' :: rest))
            by simp]
          rw [parseStrBody_escList]
          simp [hv, mk_data]
        | cons kw gs' =>
          obtain ⟨k2, w2⟩ := kw
          have hpv := sizeJ_pos v
          have hpw := sizeJ_pos w2
          simp only [sizeMembers] at hsz
          have hszv : sizeJ v ≤ fuel := by omega
          have hszgs : sizeMembers ((k2, w2) :: gs') ≤ fuel := by
            simp only [sizeMembers]; omega
          have hv := ihP v (',' :: (encodeMembers ((k2, w2) :: gs') ++ '\x7d' :: rest))
            hszv rfl
          have hgs := ihR ((k2, w2) :: gs') rest hszgs
          simp only [encodeMembers, List.cons_append, List.append_assoc, parseMembers]
          rw [show escList k.data
                ++ ('"' :: ':' :: (encodeJson v
                  ++ ',' :: (encodeMembers ((k2, w2) :: gs') ++ '\x7d' :: rest)))
              = escList k.data
                ++ '"' :: (':' :: (encodeJson v
                  ++ ',' :: (encodeMembers ((k2, w2) :: gs') ++ '\x7d' :: rest)))
            by simp]
          rw [parseStrBody_escList]
          simp [hv, hgs, mk_data]

/-- Parsing the serializer's output recovers the value exactly. -/
theorem JSONparse_getJSON (v : Json) : JSONparse (getJSON v) = some v := by
  have hsz : sizeJ v ≤ (encodeJson v).length + 1 := by
    have := sizeJ_le_encode v
    omega
  have h := (parse_encode_trio ((encodeJson v).length + 1)).1 v [] hsz rfl
  rw [List.append_nil] at h
  unfold JSONparse getJSON
  rw [show (String.mk (encodeJson v)).data = encodeJson v from rfl, h]

/-- C8: for every prototype and every JSON text that parses, `fromJSON`
returns the parsed plain structure (its own fields unchanged) paired with
the given prototype as its method-resolution chain; in particular decoding
the encoding of any plain object recovers exactly its own fields. -/
theorem C8_fromJSON_roundtrip {α : Type} :
    (∀ (proto : α) (txt : String) (v : Json),
      JSONparse txt = some v → fromJSON proto txt = some (v, proto)) ∧
    (∀ (proto : α) (fs : List (String × Json)),
      fromJSON proto (getJSON (.obj fs)) = some (.obj fs, proto)) := by
  constructor
  · intro proto txt v h
    simp [fromJSON, h]
  · intro proto fs
    simp [fromJSON, JSONparse_getJSON]

/-- C8 witness: decoding a concrete object text attaches the prototype and
keeps the parsed fields. -/
theorem C8_witness :
    fromJSON (0 : Nat) "\x7b\"a\":true\x7d" = some (.obj [("a", Json.bool true)], 0) :=
  C8_fromJSON_roundtrip.1 0 "\x7b\"a\":true\x7d" (.obj [("a", Json.bool true)]) rfl

end CoreJs
